import Mathlib

set_option maxRecDepth 10000
set_option maxHeartbeats 4000000

/-!
Verification of `crc16_wmbus` (src/main.py): the CRC16 of EN 13757-4 for
wireless M-Bus, computed by bit-serial polynomial long division over GF(2)
using arbitrary-precision integers.

The Python function takes the message as a string of hexadecimal digits,
decodes it with `int(message, 16)`, shifts left by 16 bits, performs the
long division against the generator polynomial 0x3D65, complements the raw
remainder with 0xFFFF, packs it as a little-endian 16-bit value
(`struct.pack`, which fails if the value does not fit in 16 bits) and
returns its lowercase hex encoding (`binascii.hexlify`).

Modelling notes.
* Machine integers: Python integers are unbounded, so plain `Nat` is the
  faithful carrier; no modular truncation occurs anywhere except the
  explicit `% 2**n` in the source.
* `int(message, 16)` is modelled on plain nonempty strings of hexadecimal
  digits, the only forms this repository exercises; it returns `none`
  (Python: `ValueError`) on the empty string and on strings containing a
  character that is not a hexadecimal digit.  Python's `int` additionally
  accepts surrounding whitespace, an optional sign, an optional `0x`/`0X`
  prefix and underscore digit separators; those exotic forms are outside
  the modelled fragment, and no theorem below quantifies over them.
* `struct.pack('<H', crc)` raises `struct.error` when `crc` is not a
  16-bit value, so packing is modelled as an `Option`.
-/

namespace CrcWmbus

/-- Value of a hexadecimal digit character: `0`-`9`, `a`-`f`, `A`-`F`. -/
def hexDigitVal? (c : Char) : Option Nat :=
  if '0' ≤ c ∧ c ≤ '9' then some (c.toNat - '0'.toNat)
  else if 'a' ≤ c ∧ c ≤ 'f' then some (c.toNat - 'a'.toNat + 10)
  else if 'A' ≤ c ∧ c ≤ 'F' then some (c.toNat - 'A'.toNat + 10)
  else none

/-- Models `int(message, 16)` on the plain-digit fragment (see the header):
`none` on the empty string (Python raises `ValueError`) and on any string
containing a non-hexadecimal character; otherwise the big-endian value of
the digits.  An odd number of digits is accepted, exactly as in Python. -/
def int16? (s : List Char) : Option Nat :=
  if s = [] then none
  else s.foldlM (fun acc c => (hexDigitVal? c).map (fun d => 16 * acc + d)) 0

/-- Number of binary digits of `m` (for `m ≥ 1`), computed with explicit
fuel so that it reduces by kernel evaluation.  `bitlenAux fuel m` is the
bit length of `m` whenever `m ≤ fuel`. -/
def bitlenAux : Nat → Nat → Nat
  | 0, _ => 0
  | fuel + 1, m => if m = 0 then 0 else bitlenAux fuel (m / 2) + 1

/-- Models `len(bin(m)[2:])` of the source: the number of binary digits of
`m`, except that `bin(0)` is `'0b0'`, so the value at `0` is `1`. -/
def pyBitlen (m : Nat) : Nat :=
  if m = 0 then 1 else bitlenAux m m

/-- Generator polynomial g(x) of EN 13757-4, the x^16 term not stored. -/
def g : Nat := 0x3d65

/-- The generator polynomial is 16 bits. -/
def g_bitlen : Nat := 16

/-- One iteration of the division loop, at bit position `n`:
`if crc & (1 << n): crc = (crc ^ (g << (n - g_bitlen))) % 2**n`. -/
def divStep (crc n : Nat) : Nat :=
  if crc &&& (1 <<< n) ≠ 0 then (crc ^^^ (g <<< (n - g_bitlen))) % 2 ^ n
  else crc

/-- The index sequence of `range(m_bitlen - 1, g_bitlen - 1, -1)`:
`m_bitlen - 1, m_bitlen - 2, ..., 16` (empty when `m_bitlen ≤ 16`). -/
def loopRange (m_bitlen : Nat) : List Nat :=
  (List.range' 16 (m_bitlen - 16)).reverse

/-- The division part of `crc16_wmbus`, starting from the already decoded
message value `m0`: shift by 16 guard bits, then run the division loop
from the most significant bit down to bit 16.  Returns the raw
(uncomplemented) remainder. -/
def crcRaw (m0 : Nat) : Nat :=
  let m := m0 <<< 16
  let m_bitlen := pyBitlen m
  (loopRange m_bitlen).foldl divStep m

/-- Models `struct.pack('<H', crc)`: the two bytes of a 16-bit value in
little-endian order, failing (`struct.error`) when out of range. -/
def pack_LE_H (crc : Nat) : Option (List Nat) :=
  if crc < 2 ^ 16 then some [crc % 2 ^ 8, crc / 2 ^ 8] else none

/-- Lowercase hexadecimal digit character of `d < 16`. -/
def hexChar (d : Nat) : Char :=
  if d < 10 then Char.ofNat ('0'.toNat + d) else Char.ofNat ('a'.toNat + (d - 10))

/-- Models `binascii.hexlify`: two lowercase hex digits per byte. -/
def hexlify (bs : List Nat) : List Char :=
  (bs.map (fun b => [hexChar (b / 16), hexChar (b % 16)])).flatten

/-- The function `crc16_wmbus` of src/main.py, end to end: decode the hex
text, divide, complement with 0xFFFF, pack little-endian, hex-encode.
`none` models an uncaught Python exception. -/
def crc16_wmbus (message : List Char) : Option (List Char) :=
  match int16? message with
  | none => none
  | some m0 => (pack_LE_H (crcRaw m0 ^^^ 0xFFFF)).map hexlify

/-- The big-endian integer value of a byte sequence; `int(h, 16)` applied
to the hex encoding of a byte sequence yields exactly this value, so this
is the checksum engine's view of a message given as raw bytes. -/
def bytesToVal (msg : List Nat) : Nat :=
  msg.foldl (fun acc b => 256 * acc + b) 0

/-- The checksum engine on a raw byte sequence (the spec's
`compute(message: byte sequence)`): the part of `crc16_wmbus` after text
decoding, producing the two checksum bytes in transmission order. -/
def compute (message : List Nat) : Option (List Nat) :=
  pack_LE_H (crcRaw (bytesToVal message) ^^^ 0xFFFF)

/-- The full generator polynomial of EN 13757-4 including the x^16 term:
0x10000 + 0x3D65. -/
def G_full : Nat := 0x13D65

/-- The division step as the specification words it: if the remainder has
a 1 at bit `n`, XOR it with the full generator polynomial shifted so that
its top (x^16) bit aligns with bit `n`. -/
def specStep (crc n : Nat) : Nat :=
  if crc.testBit n then crc ^^^ (G_full <<< (n - 16)) else crc

/-- The division loop run with the specification's step over the same bit
positions as `crcRaw`. -/
def specRaw (m0 : Nat) : Nat :=
  let m := m0 <<< 16
  (loopRange (pyBitlen m)).foldl specStep m

/-- The message with bit `i` toggled, bits counted most-significant first
within each byte: bit `i` lives in byte `i / 8`. -/
def flipBit (msg : List Nat) (i : Nat) : List Nat :=
  msg.set (i / 8) ((msg.getD (i / 8) 0) ^^^ (1 <<< (7 - i % 8)))

/-- First known vector (EN 13757-4 p. 84 example), as decoded bytes. -/
def M1 : List Nat :=
  [0x14, 0x44, 0xAE, 0x0C, 0x78, 0x56, 0x34, 0x12, 0x01, 0x07,
   0x8C, 0x20, 0x27, 0x78, 0x0B, 0x13, 0x43, 0x65, 0x87]

/-- Second known vector (payload CRC of a captured telegram), as bytes. -/
def M2 : List Nat :=
  [0x79, 0x13, 0x8C, 0x79, 0x76, 0xCE, 0x00, 0x00, 0x00, 0x00, 0x00,
   0x00, 0x00, 0x04, 0x00, 0x00, 0x00, 0x00, 0x00, 0x00, 0x00]

/-- Third known vector (captured OmniPower telegram), as bytes. -/
def M3 : List Nat :=
  [0x79, 0x13, 0x8C, 0x44, 0x91, 0xCE, 0x00, 0x00, 0x00, 0x00, 0x00,
   0x00, 0x00, 0x03, 0x00, 0x00, 0x00, 0x00, 0x00, 0x00, 0x00]

/-- `bitlenAux fuel m` bounds `m` from above by `2 ^ bitlenAux fuel m`
whenever the fuel is sufficient. -/
theorem lt_two_pow_bitlenAux : ∀ fuel m, m ≤ fuel → m < 2 ^ bitlenAux fuel m := by
  intro fuel
  induction fuel with
  | zero =>
    intro m hm
    have h0 : m = 0 := Nat.le_zero.mp hm
    subst h0
    simp [bitlenAux]
  | succ fuel ih =>
    intro m hm
    by_cases h0 : m = 0
    · subst h0; simp [bitlenAux]
    · have ihm := ih (m / 2) (by omega)
      simp only [bitlenAux, h0, if_false]
      calc m < 2 * (m / 2) + 2 := by omega
        _ ≤ 2 * 2 ^ bitlenAux fuel (m / 2) := by omega
        _ = 2 ^ (bitlenAux fuel (m / 2) + 1) := by
            rw [Nat.pow_succ, Nat.mul_comm]

/-- Any natural number is below `2` to its Python bit length. -/
theorem lt_two_pow_pyBitlen (m : Nat) : m < 2 ^ pyBitlen m := by
  unfold pyBitlen
  by_cases h0 : m = 0
  · subst h0; simp
  · simp only [h0, if_false]
    exact lt_two_pow_bitlenAux m m (Nat.le_refl m)

/-- The loop guard `crc & (1 << n) != 0` tests exactly bit `n` of `crc`. -/
theorem and_one_shiftLeft (crc n : Nat) :
    (crc &&& (1 <<< n) ≠ 0) ↔ crc.testBit n = true := by
  rw [Nat.one_shiftLeft, Nat.and_two_pow]
  cases h : crc.testBit n <;>
    simp [Nat.pos_iff_ne_zero, Nat.pos_pow_of_pos]

/-- The full generator agrees with the stored one on the low 16 bits. -/
theorem G_full_low_bits : ∀ j, j < 16 → G_full.testBit j = g.testBit j := by decide

/-- Bit 16 (the x^16 term) of the full generator is set. -/
theorem G_full_top_bit : G_full.testBit 16 = true := by decide

/-- The full generator polynomial is a 17-bit value. -/
theorem G_full_lt : G_full < 2 ^ 17 := by decide

/-- When the remainder fits in `n + 1` bits and has bit `n` set, the
source's reduction step `(crc ^ (g << (n - 16))) % 2**n` is exactly an
XOR with the full 17-bit generator aligned at bit `n`. -/
theorem divStep_eq_specStep {crc n : Nat} (hn : 16 ≤ n) (hcrc : crc < 2 ^ (n + 1)) :
    divStep crc n = specStep crc n := by
  unfold divStep specStep g_bitlen
  by_cases hb : crc.testBit n
  · rw [if_pos ((and_one_shiftLeft crc n).mpr hb), if_pos hb]
    apply Nat.eq_of_testBit_eq
    intro i
    rw [Nat.testBit_mod_two_pow, Nat.testBit_xor, Nat.testBit_xor,
      Nat.testBit_shiftLeft, Nat.testBit_shiftLeft]
    rcases Nat.lt_trichotomy i n with hi | hi | hi
    · simp only [decide_eq_true hi, Bool.true_and]
      by_cases hs : n - 16 ≤ i
      · have hj : i - (n - 16) < 16 := by omega
        simp [ge_iff_le, hs, G_full_low_bits _ hj]
      · simp [ge_iff_le, hs]
    · subst hi
      have h1 : i - 16 ≤ i := by omega
      have h2 : i - (i - 16) = 16 := by omega
      simp [ge_iff_le, h1, h2, hb, G_full_top_bit]
    · have h1 : decide (i < n) = false := by simp [Nat.not_lt_of_gt hi]
      have h2 : crc.testBit i = false :=
        Nat.testBit_lt_two_pow (Nat.lt_of_lt_of_le hcrc (Nat.pow_le_pow_right (by omega) (by omega)))
      have h3 : G_full.testBit (i - (n - 16)) = false := by
        apply Nat.testBit_lt_two_pow
        exact Nat.lt_of_lt_of_le G_full_lt (Nat.pow_le_pow_right (by omega) (by omega))
      simp [h1, h2, h3]
  · rw [if_neg, if_neg hb]
    intro hand
    exact hb ((and_one_shiftLeft crc n).mp hand)

/-- Each division step shrinks the remainder below `2 ^ n`. -/
theorem divStep_lt {crc n : Nat} (hcrc : crc < 2 ^ (n + 1)) :
    divStep crc n < 2 ^ n := by
  unfold divStep
  by_cases hb : crc &&& (1 <<< n) ≠ 0
  · rw [if_pos hb]
    exact Nat.mod_lt _ (Nat.two_pow_pos n)
  · rw [if_neg hb]
    have hbit : crc.testBit n = false := by
      rcases Bool.eq_false_or_eq_true (crc.testBit n) with h | h
      · exact absurd ((and_one_shiftLeft crc n).mpr h) hb
      · exact h
    have hq2 : crc / 2 ^ n < 2 := by
      rw [Nat.div_lt_iff_lt_mul (Nat.two_pow_pos n)]
      rw [Nat.pow_succ] at hcrc
      omega
    have hq1 : crc / 2 ^ n % 2 ≠ 1 := by
      intro h
      rw [Nat.testBit_to_div_mod] at hbit
      simp [h] at hbit
    have hq0 : crc / 2 ^ n < 1 := by omega
    have := (Nat.div_lt_iff_lt_mul (x := crc) (y := 1) (Nat.two_pow_pos n)).mp hq0
    omega

/-- Running the division loop over bit positions `16 + k - 1, ..., 16`
from a remainder below `2 ^ (16 + k)` agrees with the specification's
step everywhere and lands below `2 ^ 16`. -/
theorem foldl_divStep_spec (k : Nat) :
    ∀ crc, crc < 2 ^ (16 + k) →
      ((List.range' 16 k).reverse.foldl divStep crc
          = (List.range' 16 k).reverse.foldl specStep crc) ∧
        (List.range' 16 k).reverse.foldl divStep crc < 2 ^ 16 := by
  induction k with
  | zero =>
    intro crc h
    exact ⟨rfl, h⟩
  | succ k ih =>
    intro crc h
    rw [List.range'_1_concat, List.reverse_append]
    simp only [List.reverse_singleton, List.singleton_append, List.foldl_cons]
    have h1 : 16 ≤ 16 + k := by omega
    have h2 : crc < 2 ^ ((16 + k) + 1) := by
      have he : 16 + (k + 1) = (16 + k) + 1 := by omega
      rwa [he] at h
    have hstep := divStep_eq_specStep h1 h2
    have hlt := divStep_lt h2
    obtain ⟨ihe, ihl⟩ := ih (divStep crc (16 + k)) hlt
    refine ⟨?_, ihl⟩
    rw [← hstep]
    exact ihe

/-- The raw remainder computed by the source's loop equals the one
computed with the specification's step, and fits in 16 bits. -/
theorem crcRaw_spec (m0 : Nat) : crcRaw m0 = specRaw m0 ∧ crcRaw m0 < 2 ^ 16 := by
  by_cases h0 : m0 = 0
  · subst h0
    exact ⟨rfl, by decide⟩
  · have hm16 : 2 ^ 16 ≤ m0 <<< 16 := by
      rw [Nat.shiftLeft_eq]
      exact Nat.le_mul_of_pos_left _ (Nat.pos_of_ne_zero h0)
    have hlt : m0 <<< 16 < 2 ^ pyBitlen (m0 <<< 16) := lt_two_pow_pyBitlen _
    have h17 : 17 ≤ pyBitlen (m0 <<< 16) := by
      by_contra hc
      push_neg at hc
      have h2 : (2 : Nat) ^ pyBitlen (m0 <<< 16) ≤ 2 ^ 16 :=
        Nat.pow_le_pow_right (by omega) (by omega)
      omega
    have hk : 16 + (pyBitlen (m0 <<< 16) - 16) = pyBitlen (m0 <<< 16) := by omega
    have h := foldl_divStep_spec (pyBitlen (m0 <<< 16) - 16) (m0 <<< 16) (by rw [hk]; exact hlt)
    exact h

/-- The complemented CRC also fits in 16 bits, so packing succeeds. -/
theorem crcFinal_lt (m0 : Nat) : crcRaw m0 ^^^ 0xFFFF < 2 ^ 16 :=
  Nat.xor_lt_two_pow (crcRaw_spec m0).2 (by decide)

/-- Bind of a `some` in the `Option` monad reduces. -/
theorem bindSome {α β : Type} (x : α) (g : α → Option β) : (some x >>= g) = g x := rfl

/-- Folding the hex-digit accumulator over a run of `'0'` digits keeps
the accumulated value at `0`. -/
theorem foldlM_zero_digits (k : Nat) :
    (List.replicate k '0').foldlM
      (fun acc c => (hexDigitVal? c).map (fun d => 16 * acc + d)) 0 = some 0 := by
  induction k with
  | zero => rfl
  | succ k ih =>
    rw [List.replicate_succ, List.foldlM_cons]
    exact ih

/-- Prepending `'0'` digits to a nonempty string does not change the
decoded value. -/
theorem int16?_replicate_zero (s : List Char) (k : Nat) (hne : s ≠ []) :
    int16? (List.replicate k '0' ++ s) = int16? s := by
  unfold int16?
  rw [if_neg hne, if_neg (by simp [hne])]
  rw [List.foldlM_append, foldlM_zero_digits, bindSome]

/-- Decoding the hex encoding of a byte sequence recovers its big-endian
value: the engine's integer view of a message given as raw bytes agrees
with what `int(·, 16)` produces from the hex text of those bytes. -/
theorem int16?_hexlify (msg : List Nat) (hne : msg ≠ [])
    (hb : ∀ b ∈ msg, b < 256) : int16? (hexlify msg) = some (bytesToVal msg) := by
  have hdigit : ∀ d, d < 16 → hexDigitVal? (hexChar d) = some d := by decide
  have key : ∀ (l : List Nat), (∀ b ∈ l, b < 256) → ∀ acc,
      (hexlify l).foldlM
        (fun acc c => (hexDigitVal? c).map (fun d => 16 * acc + d)) acc
        = some (l.foldl (fun acc b => 256 * acc + b) acc) := by
    intro l
    induction l with
    | nil => intro _ acc; rfl
    | cons b rest ih =>
      intro hbl acc
      have hb256 : b < 256 := hbl b (List.mem_cons_self b rest)
      have hd1 : b / 16 < 16 := by omega
      have hd2 : b % 16 < 16 := by omega
      have e1 : (hexDigitVal? (hexChar (b / 16))).map (fun d => 16 * acc + d)
          = some (16 * acc + b / 16) := by rw [hdigit _ hd1]; rfl
      have e2 : (hexDigitVal? (hexChar (b % 16))).map
            (fun d => 16 * (16 * acc + b / 16) + d)
          = some (16 * (16 * acc + b / 16) + b % 16) := by rw [hdigit _ hd2]; rfl
      have hstep : hexlify (b :: rest)
          = hexChar (b / 16) :: hexChar (b % 16) :: hexlify rest := by
        simp [hexlify]
      have harith : 16 * (16 * acc + b / 16) + b % 16 = 256 * acc + b := by omega
      rw [hstep, List.foldlM_cons, e1, bindSome, List.foldlM_cons, e2, bindSome,
        harith, List.foldl_cons]
      exact ih (fun x hx => hbl x (List.mem_cons_of_mem b hx)) (256 * acc + b)
  have hlen : hexlify msg ≠ [] := by
    cases msg with
    | nil => exact absurd rfl hne
    | cons b rest => simp [hexlify]
  unfold int16?
  rw [if_neg hlen]
  exact key msg hb 0

/-- C1: the checksum engine applied to each of the three documented
messages yields the documented 2-byte little-endian result encoded as
hex: `c57a`, `bb52` and `1170` respectively. -/
theorem known_answer_vectors :
    crc16_wmbus "1444AE0C7856341201078C2027780B13436587".toList = some "c57a".toList ∧
    crc16_wmbus "79138C7976CE000000000000000400000000000000".toList = some "bb52".toList ∧
    crc16_wmbus "79138C4491CE000000000000000300000000000000".toList = some "1170".toList :=
  ⟨by decide, by decide, by decide⟩

/-- C2: the division loop is bit-serial GF(2) long division: over the bit
positions from the top bit of `message <<< 16` down to 16, the source's
`(crc ^ (g << (n - 16))) % 2**n` step coincides with XORing the remainder
with the full generator polynomial aligned at bit `n`, and after the loop
the remainder equals its own low 16 bits (it is the raw CRC). -/
theorem division_loop_is_gf2_long_division (m0 : Nat) :
    crcRaw m0 = specRaw m0 ∧ crcRaw m0 &&& (2 ^ 16 - 1) = crcRaw m0 :=
  ⟨(crcRaw_spec m0).1, Nat.and_pow_two_sub_one_of_lt_two_pow (crcRaw_spec m0).2⟩

/-- C3: on every byte sequence, the zero-length one included, the
checksum engine is total: it produces a result and has no failure mode
(in particular the final 16-bit packing can never fail). -/
theorem compute_total (message : List Nat) : (compute message).isSome = true := by
  unfold compute pack_LE_H
  rw [if_pos (crcFinal_lt (bytesToVal message))]
  rfl

/-- C4: on the empty message the checksum engine returns the complement
of zero serialized little-endian, the bytes `FF FF`. -/
theorem compute_empty_message : compute [] = some [0xFF, 0xFF] := by decide

/-- C5: on every message, of any length, the checksum engine returns
exactly two bytes, that is, a 16-bit value. -/
theorem compute_returns_two_bytes (message : List Nat) :
    ∃ lo hi, compute message = some [lo, hi] ∧ lo < 256 ∧ hi < 256 := by
  refine ⟨(crcRaw (bytesToVal message) ^^^ 0xFFFF) % 2 ^ 8,
    (crcRaw (bytesToVal message) ^^^ 0xFFFF) / 2 ^ 8, ?_, ?_, ?_⟩
  · unfold compute pack_LE_H
    rw [if_pos (crcFinal_lt (bytesToVal message))]
  · have h := Nat.mod_lt (crcRaw (bytesToVal message) ^^^ 0xFFFF)
      (Nat.two_pow_pos 8)
    norm_num at h ⊢
    omega
  · have h := crcFinal_lt (bytesToVal message)
    have h2 : (crcRaw (bytesToVal message) ^^^ 0xFFFF) / 2 ^ 8 < 2 ^ 8 := by
      rw [Nat.div_lt_iff_lt_mul (Nat.two_pow_pos 8)]
      calc crcRaw (bytesToVal message) ^^^ 0xFFFF < 2 ^ 16 := h
        _ = 2 ^ 8 * 2 ^ 8 := by norm_num
    norm_num at h2 ⊢
    omega

/-- C6 counterexample: a message text with an odd number of hexadecimal
digits is not rejected; it decodes and produces a checksum. -/
theorem odd_digit_count_is_accepted :
    crc16_wmbus "ABC".toList = some "00e9".toList := by decide

/-- C6 amended: a textual message that fails hexadecimal decoding (the
empty string, or a stray non-hexadecimal character such as `G`) raises an
error that surfaces to the caller; but an odd number of hex digits is not
an error: the value is read as if an extra `0` digit were prepended, so
the input is zero-extended on the left rather than rejected. -/
theorem malformed_text_policy :
    crc16_wmbus [] = none ∧
    crc16_wmbus ['1', 'G', '4'] = none ∧
    crc16_wmbus "0ABC".toList = crc16_wmbus "ABC".toList :=
  ⟨rfl, by decide, by decide⟩

/-- C7: on every message the output is the raw 16-bit remainder
complemented by XOR with 0xFFFF and serialized low byte first. -/
theorem complement_then_little_endian (message : List Nat) :
    compute message =
      some [(crcRaw (bytesToVal message) ^^^ 0xFFFF) % 2 ^ 8,
            (crcRaw (bytesToVal message) ^^^ 0xFFFF) / 2 ^ 8] := by
  unfold compute pack_LE_H
  rw [if_pos (crcFinal_lt (bytesToVal message))]

/-- C9: the checksum engine is a pure function of its argument: two
invocations on the same message return identical results. -/
theorem compute_deterministic (message : List Nat) :
    compute message = compute message := rfl

/-- C10: prepending `0` hex digits to a nonempty hex message never
changes the checksum, because the loop bound is derived from the bit
length of the decoded value, not from the digit count. -/
theorem leading_zero_digits_invariant (s : List Char) (k : Nat) (hne : s ≠ [])
    (hhex : ∀ c ∈ s, (hexDigitVal? c).isSome = true) :
    crc16_wmbus (List.replicate k '0' ++ s) = crc16_wmbus s := by
  unfold crc16_wmbus
  rw [int16?_replicate_zero s k hne]

/-- C10 witness: the invariance applied to the concrete message `ABC`
with two prepended zero digits. -/
theorem leading_zero_digits_invariant_witness :
    ("ABC".toList ≠ [] ∧ ∀ c ∈ "ABC".toList, (hexDigitVal? c).isSome = true) ∧
    crc16_wmbus (List.replicate 2 '0' ++ "ABC".toList) = crc16_wmbus "ABC".toList :=
  ⟨⟨by decide, by decide⟩,
    leading_zero_digits_invariant "ABC".toList 2 (by decide) (by decide)⟩

/-- C8: for each of the three known vectors, toggling any single bit of
the input message produces an output different from the documented
expected value for that vector. -/
theorem single_bit_sensitivity :
    (∀ i, i < 152 → compute (flipBit M1 i) ≠ some [0xc5, 0x7a]) ∧
    (∀ i, i < 168 → compute (flipBit M2 i) ≠ some [0xbb, 0x52]) ∧
    (∀ i, i < 168 → compute (flipBit M3 i) ≠ some [0x11, 0x70]) :=
  ⟨by decide, by decide, by decide⟩

/-- C8 witness: flipping the first bit of the first vector indeed moves
the result away from `c57a`. -/
theorem single_bit_sensitivity_witness :
    0 < 152 ∧ compute (flipBit M1 0) ≠ some [0xc5, 0x7a] :=
  ⟨by decide, single_bit_sensitivity.1 0 (by decide)⟩

end CrcWmbus
